import Mathlib

/-!
Shallow embedding of the Salone-Freelance job-marketplace application
(`jobs/models.py` and `jobs/views.py`).

Database rows become Lean structures; the database is a record of lists of
rows.  Statuses are the same string constants the Django models use
(`'open'`, `'in_progress'`, `'completed'`, `'pending'`, `'accepted'`,
`'rejected'`).  Each Django view becomes a pure function from a database
state (plus the request parameters) to an HTTP-level outcome together with
the new database state.  `get_object_or_404` becomes a `find?` lookup whose
`none` case returns `notFound`; queryset `update`/`delete` calls become
`map`/`filter` over the row lists; `order_by` becomes a stable insertion
sort on the relevant key.
-/

namespace Salone

/-- Model of the `Profile` row: links a user id to a role string
(`'client'` or `'freelancer'`). -/
structure Profile where
  userId : Nat
  role : String
deriving DecidableEq

/-- Model of the `Job` row from `jobs/models.py`.  `owner` is a nullable foreign key,
`status` defaults to `'open'` at creation. -/
structure Job where
  id : Nat
  title : String
  description : String
  budget : Int
  owner : Option Nat
  status : String
  createdAt : Nat
deriving DecidableEq

/-- Model of the `Application` row: `applicant_user` is a nullable foreign key,
`status` defaults to `'pending'`. -/
structure Application where
  id : Nat
  jobId : Nat
  applicantUser : Option Nat
  applicantName : String
  proposal : String
  status : String
  createdAt : Nat
deriving DecidableEq

/-- Model of the `Message` row: sender, receiver, job foreign keys, an unread flag
(default `false`) and an auto-set timestamp. -/
structure Message where
  id : Nat
  sender : Nat
  receiver : Nat
  jobId : Nat
  content : String
  read : Bool
  timestamp : Nat
deriving DecidableEq

/-- The relational store: user ids, profiles, jobs, applications, messages. -/
structure DB where
  users : List Nat
  profiles : List Profile
  jobs : List Job
  applications : List Application
  messages : List Message
deriving DecidableEq

/-- Outcome of a request, at the level of detail the views distinguish:
a successful mutation redirect (`ok`), `HttpResponseForbidden`,
`get_object_or_404` failing (`notFound`), the role-gate redirect to the
public home page (`redirectHome`), and re-rendering a page without
mutating (`rendered`). -/
inductive HttpResult where
  | ok
  | forbidden
  | notFound
  | redirectHome
  | rendered
deriving DecidableEq

/-- Lookup `get_object_or_404(Job, pk=id)`. -/
def findJob (db : DB) (id : Nat) : Option Job :=
  db.jobs.find? (fun j => j.id = id)

/-- Lookup `get_object_or_404(Application, pk=id)`. -/
def findApp (db : DB) (id : Nat) : Option Application :=
  db.applications.find? (fun a => a.id = id)

/-- Reads `request.user.profile.role`, `none` when the profile row is missing. -/
def roleOf (db : DB) (u : Nat) : Option String :=
  (db.profiles.find? (fun p => p.userId = u)).map Profile.role

/-- Status of the job row with the given id, if any. -/
def jobStatus (db : DB) (id : Nat) : Option String :=
  (findJob db id).map Job.status

/-- Status of the application row with the given id, if any. -/
def appStatus (db : DB) (id : Nat) : Option String :=
  (findApp db id).map Application.status

/-- Stable insertion into a list sorted by the boolean relation `le`. -/
def insertLe {α : Type} (le : α → α → Bool) (a : α) : List α → List α
  | [] => [a]
  | b :: l => if le a b then a :: b :: l else b :: insertLe le a l

/-- Stable insertion sort by the boolean relation `le`; models
`order_by` / Python `sorted`. -/
def sortLe {α : Type} (le : α → α → Bool) : List α → List α
  | [] => []
  | a :: l => insertLe le a (sortLe le l)

/-- View `accept_application` (views.py 232-246): look the application up, then
its job; only the job owner may proceed; on success the application status
becomes `'accepted'` and the job status unconditionally `'in_progress'`. -/
def accept_application (db : DB) (actor : Nat) (appId : Nat) : HttpResult × DB :=
  match findApp db appId with
  | none => (.notFound, db)
  | some app =>
    match findJob db app.jobId with
    | none => (.notFound, db)
    | some job =>
      if job.owner = some actor then
        (.ok, { db with
          applications := db.applications.map (fun a =>
            if a.id = appId then { a with status := "accepted" } else a),
          jobs := db.jobs.map (fun j =>
            if j.id = job.id then { j with status := "in_progress" } else j) })
      else (.forbidden, db)

/-- View `reject_application` (views.py 249-265): owner-only; sets the
application status to `'rejected'`. -/
def reject_application (db : DB) (actor : Nat) (appId : Nat) : HttpResult × DB :=
  match findApp db appId with
  | none => (.notFound, db)
  | some app =>
    match findJob db app.jobId with
    | none => (.notFound, db)
    | some job =>
      if job.owner = some actor then
        (.ok, { db with
          applications := db.applications.map (fun a =>
            if a.id = appId then { a with status := "rejected" } else a) })
      else (.forbidden, db)

/-- View `complete_job` (views.py 374-401): owner-only; sets the job status to
`'completed'`, then `job.applications.exclude(status='accepted')
.update(status='rejected')`. -/
def complete_job (db : DB) (actor : Nat) (jobId : Nat) : HttpResult × DB :=
  match findJob db jobId with
  | none => (.notFound, db)
  | some job =>
    if job.owner = some actor then
      (.ok, { db with
        jobs := db.jobs.map (fun j =>
          if j.id = jobId then { j with status := "completed" } else j),
        applications := db.applications.map (fun a =>
          if a.jobId = jobId ∧ a.status ≠ "accepted"
          then { a with status := "rejected" } else a) })
    else (.forbidden, db)

/-- View `delete_application` (views.py 405-419): denied unless the requester is
the applicant and the status is `'rejected'`; on success the row is
hard-deleted. -/
def delete_application (db : DB) (actor : Nat) (appId : Nat) : HttpResult × DB :=
  match findApp db appId with
  | none => (.notFound, db)
  | some app =>
    if app.applicantUser ≠ some actor ∨ app.status ≠ "rejected" then
      (.forbidden, db)
    else
      (.ok, { db with
        applications := db.applications.filter (fun a => a.id ≠ appId) })

/-- Coercion `int(budget)` with the `except` branch storing `0`
(views.py 124-127). -/
def parseBudget (s : String) : Int :=
  (s.toInt?).getD 0

/-- View `post_job`, POST branch (views.py 105-136): client-only; creates a job
with `status='open'` (the model default) when all form fields are
non-empty, otherwise re-renders the form. -/
def post_job (db : DB) (actor : Nat) (title description budget : String)
    (newId now : Nat) : HttpResult × DB :=
  if roleOf db actor = some "client" then
    if title ≠ "" ∧ description ≠ "" ∧ budget ≠ "" then
      (.ok, { db with jobs := db.jobs ++
        [⟨newId, title, description, parseBudget budget, some actor, "open", now⟩] })
    else (.rendered, db)
  else (.redirectHome, db)

/-- View `apply_job`, POST branch (views.py 139-163): freelancer-only; looks the
job up with no condition on its status, and creates a `'pending'`
application when both form fields are non-empty. -/
def apply_job (db : DB) (actor : Nat) (jobId : Nat)
    (applicantName proposal : String) (newId now : Nat) : HttpResult × DB :=
  if roleOf db actor = some "freelancer" then
    match findJob db jobId with
    | none => (.notFound, db)
    | some job =>
      if applicantName ≠ "" ∧ proposal ≠ "" then
        (.ok, { db with applications := db.applications ++
          [⟨newId, job.id, some actor, applicantName, proposal, "pending", now⟩] })
      else (.rendered, db)
  else (.redirectHome, db)

/-- The authorization predicate shared by `conversation` and `clear_chat`
(views.py 296-306 / 351-361): the requester must be the job owner or have
an `'accepted'` application on the job.  The counterpart user plays no
part in it. -/
def conversationAuthorized (db : DB) (actor : Nat) (job : Job) : Bool :=
  job.owner = some actor ∨
    db.applications.any (fun a =>
      a.jobId = job.id ∧ a.applicantUser = some actor ∧ a.status = "accepted")

/-- Update `Message.objects.filter(job=job, receiver=request.user, sender=other,
read=False).update(read=True)` (views.py 315-320). -/
def markThreadRead (msgs : List Message) (jobId actor otherId : Nat) :
    List Message :=
  msgs.map (fun m =>
    if m.jobId = jobId ∧ m.receiver = actor ∧ m.sender = otherId ∧ m.read = false
    then { m with read := true } else m)

/-- The thread query of `conversation` (views.py 309-312): messages of the
job between the two users in either direction, `order_by('timestamp')`. -/
def threadMessages (msgs : List Message) (jobId actor otherId : Nat) :
    List Message :=
  sortLe (fun a b => a.timestamp ≤ b.timestamp)
    (msgs.filter (fun m => m.jobId = jobId ∧
      ((m.sender = actor ∧ m.receiver = otherId) ∨
       (m.sender = otherId ∧ m.receiver = actor))))

/-- View `conversation`, GET (views.py 289-337): 404 on missing job or user,
forbidden unless authorized; otherwise marks the incoming half of the
thread read and renders the thread.  The returned message list is taken
from the updated store because the Django queryset is evaluated lazily,
after the `update` has run. -/
def conversation (db : DB) (actor jobId otherId : Nat) :
    HttpResult × List Message × DB :=
  match findJob db jobId with
  | none => (.notFound, [], db)
  | some job =>
    if db.users.contains otherId then
      if conversationAuthorized db actor job then
        let msgs := markThreadRead db.messages jobId actor otherId
        (.rendered, threadMessages msgs jobId actor otherId,
          { db with messages := msgs })
      else (.forbidden, [], db)
    else (.notFound, [], db)

/-- View `conversation`, POST (views.py 322-331): same lookups, authorization and
read-marking as the GET, then a new unread message is appended when the
content is non-empty, and the request redirects either way. -/
def conversation_post (db : DB) (actor jobId otherId : Nat)
    (content : String) (newId now : Nat) : HttpResult × DB :=
  match findJob db jobId with
  | none => (.notFound, db)
  | some job =>
    if db.users.contains otherId then
      if conversationAuthorized db actor job then
        let msgs := markThreadRead db.messages jobId actor otherId
        if content ≠ "" then
          (.ok, { db with messages := msgs ++
            [⟨newId, actor, otherId, jobId, content, false, now⟩] })
        else (.ok, { db with messages := msgs })
      else (.forbidden, db)
    else (.notFound, db)

/-- View `clear_chat` (views.py 340-371): same lookups and authorization, then
`Message.objects.filter(job=job, sender__in=[request.user, other],
receiver__in=[request.user, other]).delete()`. -/
def clear_chat (db : DB) (actor jobId otherId : Nat) : HttpResult × DB :=
  match findJob db jobId with
  | none => (.notFound, db)
  | some job =>
    if db.users.contains otherId then
      if conversationAuthorized db actor job then
        (.ok, { db with messages := db.messages.filter (fun m =>
          ¬(m.jobId = jobId ∧ (m.sender = actor ∨ m.sender = otherId) ∧
            (m.receiver = actor ∨ m.receiver = otherId))) })
      else (.forbidden, db)
    else (.notFound, db)

/-- Helper `get_unread_message_count` (views.py 422-426) for an authenticated
user. -/
def get_unread_message_count (db : DB) (u : Nat) : Nat :=
  (db.messages.filter (fun m => m.receiver = u ∧ m.read = false)).length

/-- One entry of the `my_conversations` summary dictionary. -/
structure ConvEntry where
  jobId : Nat
  otherUserId : Nat
  lastMessageTime : Nat
  unreadCount : Nat
deriving DecidableEq

/-- Expression `other_user = msg.sender if msg.receiver == request.user else
msg.receiver` (views.py 443). -/
def otherUserOf (u : Nat) (m : Message) : Nat :=
  if m.receiver = u then m.sender else m.receiver

/-- The per-conversation unread count of `my_conversations`
(views.py 452-457). -/
def pairUnreadCount (db : DB) (u jobId otherId : Nat) : Nat :=
  (db.messages.filter (fun m =>
    m.jobId = jobId ∧ m.receiver = u ∧ m.sender = otherId ∧ m.read = false)).length

/-- The summary entry built from the first message seen for a key
(views.py 448-458). -/
def convEntryOf (db : DB) (u : Nat) (m : Message) : ConvEntry :=
  ⟨m.jobId, otherUserOf u m, m.timestamp,
    pairUnreadCount db u m.jobId (otherUserOf u m)⟩

/-- Whether the summary list already holds the key
`(other_user.id, job_id)` (views.py 447). -/
def hasConvKey (acc : List ConvEntry) (jobId otherId : Nat) : Bool :=
  acc.any (fun e => e.jobId = jobId ∧ e.otherUserId = otherId)

/-- The dictionary-building loop of `my_conversations` (views.py 441-458):
walk the messages in order, keep the first occurrence of each
`(other_user, job)` key.  Insertion order of a Python dict is append
order. -/
def buildConvs (db : DB) (u : Nat) (acc : List ConvEntry) :
    List Message → List ConvEntry
  | [] => acc
  | m :: rest =>
    if hasConvKey acc m.jobId (otherUserOf u m) then
      buildConvs db u acc rest
    else
      buildConvs db u (acc ++ [convEntryOf db u m]) rest

/-- View `my_conversations` (views.py 429-469): scan the user's messages in
`-timestamp` order, build one entry per `(other_user, job)` key, then
`sorted(..., key=last_message_time, reverse=True)`. -/
def my_conversations (db : DB) (u : Nat) : List ConvEntry :=
  let involved := db.messages.filter (fun m => m.sender = u ∨ m.receiver = u)
  let ordered := sortLe (fun a b => b.timestamp ≤ a.timestamp) involved
  sortLe (fun a b => b.lastMessageTime ≤ a.lastMessageTime)
    (buildConvs db u [] ordered)

/-- The mutating requests of the application, as one closed type, so that
properties quantified over "any operation of the program" can be stated. -/
inductive Op where
  | postJob (actor : Nat) (title description budget : String) (newId now : Nat)
  | applyJob (actor jobId : Nat) (applicantName proposal : String) (newId now : Nat)
  | accept (actor appId : Nat)
  | reject (actor appId : Nat)
  | complete (actor jobId : Nat)
  | deleteApp (actor appId : Nat)
  | viewThread (actor jobId otherId : Nat)
  | postMessage (actor jobId otherId : Nat) (content : String) (newId now : Nat)
  | clearChat (actor jobId otherId : Nat)
deriving DecidableEq

/-- The database state after a request, whatever its HTTP outcome. -/
def applyOp (db : DB) : Op → DB
  | .postJob a t d b i n => (post_job db a t d b i n).2
  | .applyJob a j nm pr i n => (apply_job db a j nm pr i n).2
  | .accept a i => (accept_application db a i).2
  | .reject a i => (reject_application db a i).2
  | .complete a j => (complete_job db a j).2
  | .deleteApp a i => (delete_application db a i).2
  | .viewThread a j o => (conversation db a j o).2.2
  | .postMessage a j o c i n => (conversation_post db a j o c i n).2
  | .clearChat a j o => (clear_chat db a j o).2

section ListLemmas

variable {α : Type}

theorem mem_insertLe (le : α → α → Bool) (a x : α) (l : List α) :
    x ∈ insertLe le a l ↔ x = a ∨ x ∈ l := by
  induction l with
  | nil => simp [insertLe]
  | cons b l ih =>
    simp only [insertLe]
    split
    · simp
    · simp only [List.mem_cons, ih]
      tauto

theorem perm_insertLe (le : α → α → Bool) (a : α) (l : List α) :
    (insertLe le a l).Perm (a :: l) := by
  induction l with
  | nil => simp [insertLe]
  | cons b l ih =>
    simp only [insertLe]
    split
    · exact List.Perm.refl _
    · exact (ih.cons b).trans (List.Perm.swap a b l)

theorem perm_sortLe (le : α → α → Bool) (l : List α) :
    (sortLe le l).Perm l := by
  induction l with
  | nil => simp [sortLe]
  | cons a l ih => exact (perm_insertLe le a (sortLe le l)).trans (ih.cons a)

theorem mem_sortLe (le : α → α → Bool) (x : α) (l : List α) :
    x ∈ sortLe le l ↔ x ∈ l :=
  (perm_sortLe le l).mem_iff

theorem pairwise_insertLe (le : α → α → Bool)
    (total : ∀ x y, le x y = false → le y x = true)
    (tr : ∀ x y z, le x y = true → le y z = true → le x z = true)
    (a : α) (l : List α) (h : l.Pairwise (fun x y => le x y = true)) :
    (insertLe le a l).Pairwise (fun x y => le x y = true) := by
  induction l with
  | nil => simp [insertLe]
  | cons b l ih =>
    rcases List.pairwise_cons.mp h with ⟨hb, hl⟩
    simp only [insertLe]
    split
    case isTrue hab =>
      refine List.pairwise_cons.mpr ⟨?_, h⟩
      intro x hx
      rcases List.mem_cons.mp hx with rfl | hx
      · exact hab
      · exact tr a b x hab (hb x hx)
    case isFalse hab =>
      refine List.pairwise_cons.mpr ⟨?_, ih hl⟩
      intro x hx
      rcases (mem_insertLe le a x l).mp hx with rfl | hx
      · exact total x b (Bool.not_eq_true _ ▸ hab)
      · exact hb x hx

theorem pairwise_sortLe (le : α → α → Bool)
    (total : ∀ x y, le x y = false → le y x = true)
    (tr : ∀ x y z, le x y = true → le y z = true → le x z = true)
    (l : List α) :
    (sortLe le l).Pairwise (fun x y => le x y = true) := by
  induction l with
  | nil => simp [sortLe]
  | cons a l ih => exact pairwise_insertLe le total tr a _ ih

theorem find?_map_pres (p : α → Bool) (f : α → α)
    (h : ∀ a, p (f a) = p a) (l : List α) :
    (l.map f).find? p = (l.find? p).map f := by
  induction l with
  | nil => simp
  | cons a l ih =>
    simp only [List.map_cons, List.find?_cons]
    rw [h a]
    cases hp : p a <;> simp [ih]

theorem find?_append_left (p : α → Bool) (l₁ l₂ : List α) (b : α)
    (h : l₁.find? p = some b) : (l₁ ++ l₂).find? p = some b := by
  rw [List.find?_append, h]
  rfl

theorem find?_filter_of_imp (p f : α → Bool) (l : List α)
    (h : ∀ a, p a = true → f a = true) :
    (l.filter f).find? p = l.find? p := by
  induction l with
  | nil => rfl
  | cons a l ih =>
    cases hf : f a with
    | true =>
      rw [List.filter_cons_of_pos hf]
      cases hp : p a with
      | true => simp [List.find?_cons, hp]
      | false => simp [List.find?_cons, hp, ih]
    | false =>
      have hp : p a = false := by
        cases hp : p a with
        | false => rfl
        | true => rw [h a hp] at hf; exact absurd hf (by simp)
      rw [List.filter_cons_of_neg (by simp [hf])]
      simp [List.find?_cons, hp, ih]

theorem find?_filter_of_excl (p f : α → Bool) (l : List α)
    (h : ∀ a, p a = true → f a = false) :
    (l.filter f).find? p = none := by
  rw [List.find?_eq_none]
  intro x hx hp
  have hf := (List.mem_filter.mp hx).2
  rw [h x hp] at hf
  exact absurd hf (by simp)

end ListLemmas

/-- How a request can change the `jobs` table: not at all, the
`'in_progress'` write of `accept_application`, the `'completed'` write of
`complete_job`, or the append performed by `post_job`. -/
theorem applyOp_jobs (db : DB) (op : Op) :
    (applyOp db op).jobs = db.jobs ∨
    (∃ tid, (∃ a i, op = Op.accept a i) ∧ (applyOp db op).jobs =
      db.jobs.map (fun j =>
        if j.id = tid then { j with status := "in_progress" } else j)) ∨
    (∃ tid, (∃ a j, op = Op.complete a j) ∧ (applyOp db op).jobs =
      db.jobs.map (fun j =>
        if j.id = tid then { j with status := "completed" } else j)) ∨
    ((∃ a t d b i n, op = Op.postJob a t d b i n) ∧
      ∃ nj : Job, (applyOp db op).jobs = db.jobs ++ [nj]) := by
  cases op with
  | postJob a t d b i n =>
    simp only [applyOp, post_job]
    split
    · split
      · exact Or.inr (Or.inr (Or.inr ⟨⟨a, t, d, b, i, n, rfl⟩, _, rfl⟩))
      · exact Or.inl rfl
    · exact Or.inl rfl
  | applyJob a j nm pr i n =>
    simp only [applyOp, apply_job]
    split
    · split
      · exact Or.inl rfl
      · split
        · exact Or.inl rfl
        · exact Or.inl rfl
    · exact Or.inl rfl
  | accept a i =>
    simp only [applyOp, accept_application]
    split
    · exact Or.inl rfl
    · split
      · exact Or.inl rfl
      · split
        · rename_i app happ job hjob hown
          exact Or.inr (Or.inl ⟨job.id, ⟨a, i, rfl⟩, rfl⟩)
        · exact Or.inl rfl
  | reject a i =>
    simp only [applyOp, reject_application]
    split
    · exact Or.inl rfl
    · split
      · exact Or.inl rfl
      · split
        · exact Or.inl rfl
        · exact Or.inl rfl
  | complete a j =>
    simp only [applyOp, complete_job]
    split
    · exact Or.inl rfl
    · split
      · exact Or.inr (Or.inr (Or.inl ⟨j, ⟨a, j, rfl⟩, rfl⟩))
      · exact Or.inl rfl
  | deleteApp a i =>
    simp only [applyOp, delete_application]
    split
    · exact Or.inl rfl
    · split
      · exact Or.inl rfl
      · exact Or.inl rfl
  | viewThread a j o =>
    simp only [applyOp, conversation]
    split
    · exact Or.inl rfl
    · split
      · split
        · exact Or.inl rfl
        · exact Or.inl rfl
      · exact Or.inl rfl
  | postMessage a j o c i n =>
    simp only [applyOp, conversation_post]
    split
    · exact Or.inl rfl
    · split
      · split
        · split
          · exact Or.inl rfl
          · exact Or.inl rfl
        · exact Or.inl rfl
      · exact Or.inl rfl
  | clearChat a j o =>
    simp only [applyOp, clear_chat]
    split
    · exact Or.inl rfl
    · split
      · split
        · exact Or.inl rfl
        · exact Or.inl rfl
      · exact Or.inl rfl

/-- How a request can change the `applications` table: not at all, the
`'accepted'` write of `accept_application`, the `'rejected'` write of
`reject_application`, the bulk `'rejected'` write of `complete_job`, the
row deletion of `delete_application`, or the `'pending'` append of
`apply_job`. -/
theorem applyOp_applications (db : DB) (op : Op) :
    (applyOp db op).applications = db.applications ∨
    (∃ tid, (∃ a i, op = Op.accept a i) ∧ (applyOp db op).applications =
      db.applications.map (fun x =>
        if x.id = tid then { x with status := "accepted" } else x)) ∨
    (∃ tid, (∃ a i, op = Op.reject a i) ∧ (applyOp db op).applications =
      db.applications.map (fun x =>
        if x.id = tid then { x with status := "rejected" } else x)) ∨
    (∃ tid, (∃ a j, op = Op.complete a j) ∧ (applyOp db op).applications =
      db.applications.map (fun x =>
        if x.jobId = tid ∧ x.status ≠ "accepted"
        then { x with status := "rejected" } else x)) ∨
    (∃ tid, (∃ a i, op = Op.deleteApp a i ∧ i = tid) ∧
      (applyOp db op).applications =
        db.applications.filter (fun x => x.id ≠ tid)) ∨
    ((∃ a j nm pr i n, op = Op.applyJob a j nm pr i n) ∧
      ∃ na : Application, na.status = "pending" ∧
        (applyOp db op).applications = db.applications ++ [na]) := by
  cases op with
  | postJob a t d b i n =>
    simp only [applyOp, post_job]
    split
    · split
      · exact Or.inl rfl
      · exact Or.inl rfl
    · exact Or.inl rfl
  | applyJob a j nm pr i n =>
    simp only [applyOp, apply_job]
    split
    · split
      · exact Or.inl rfl
      · split
        · exact Or.inr (Or.inr (Or.inr (Or.inr (Or.inr
            ⟨⟨a, j, nm, pr, i, n, rfl⟩, _, rfl, rfl⟩))))
        · exact Or.inl rfl
    · exact Or.inl rfl
  | accept a i =>
    simp only [applyOp, accept_application]
    split
    · exact Or.inl rfl
    · split
      · exact Or.inl rfl
      · split
        · exact Or.inr (Or.inl ⟨i, ⟨a, i, rfl⟩, rfl⟩)
        · exact Or.inl rfl
  | reject a i =>
    simp only [applyOp, reject_application]
    split
    · exact Or.inl rfl
    · split
      · exact Or.inl rfl
      · split
        · exact Or.inr (Or.inr (Or.inl ⟨i, ⟨a, i, rfl⟩, rfl⟩))
        · exact Or.inl rfl
  | complete a j =>
    simp only [applyOp, complete_job]
    split
    · exact Or.inl rfl
    · split
      · exact Or.inr (Or.inr (Or.inr (Or.inl ⟨j, ⟨a, j, rfl⟩, rfl⟩)))
      · exact Or.inl rfl
  | deleteApp a i =>
    simp only [applyOp, delete_application]
    split
    · exact Or.inl rfl
    · split
      · exact Or.inl rfl
      · exact Or.inr (Or.inr (Or.inr (Or.inr (Or.inl
          ⟨i, ⟨a, i, rfl, rfl⟩, rfl⟩))))
  | viewThread a j o =>
    simp only [applyOp, conversation]
    split
    · exact Or.inl rfl
    · split
      · split
        · exact Or.inl rfl
        · exact Or.inl rfl
      · exact Or.inl rfl
  | postMessage a j o c i n =>
    simp only [applyOp, conversation_post]
    split
    · exact Or.inl rfl
    · split
      · split
        · split
          · exact Or.inl rfl
          · exact Or.inl rfl
        · exact Or.inl rfl
      · exact Or.inl rfl
  | clearChat a j o =>
    simp only [applyOp, clear_chat]
    split
    · exact Or.inl rfl
    · split
      · split
        · exact Or.inl rfl
        · exact Or.inl rfl
      · exact Or.inl rfl

/-- Unpack a `jobStatus` lookup into the found row. -/
theorem jobStatus_some (db : DB) (jid : Nat) (s : String)
    (h : jobStatus db jid = some s) :
    ∃ jb, db.jobs.find? (fun j => j.id = jid) = some jb ∧ jb.status = s := by
  rw [jobStatus, findJob] at h
  exact Option.map_eq_some'.mp h

/-- Unpack an `appStatus` lookup into the found row. -/
theorem appStatus_some (db : DB) (aid : Nat) (s : String)
    (h : appStatus db aid = some s) :
    ∃ ab, db.applications.find? (fun a => a.id = aid) = some ab ∧
      ab.status = s := by
  rw [appStatus, findApp] at h
  exact Option.map_eq_some'.mp h

/-- Concrete store: client 1 owns job 1, already `'completed'`, with a
`'rejected'` application (id 1) from freelancer 2. -/
def dbCompleted : DB :=
  ⟨[1, 2], [⟨1, "client"⟩, ⟨2, "freelancer"⟩],
   [⟨1, "t", "d", 100, some 1, "completed", 0⟩],
   [⟨1, 1, some 2, "n", "p", "rejected", 0⟩], []⟩

/-- Concrete store: client 1 owns job 1, still `'open'`, with a
`'pending'` application (id 1) from freelancer 2. -/
def dbOpenPending : DB :=
  ⟨[1, 2], [⟨1, "client"⟩, ⟨2, "freelancer"⟩],
   [⟨1, "t", "d", 100, some 1, "open", 0⟩],
   [⟨1, 1, some 2, "n", "p", "pending", 0⟩], []⟩

/-- C1 counterexample: on a `'completed'` job, the owner can still POST
`accept` for one of its applications; `accept_application` succeeds and
unconditionally writes `'in_progress'`, moving the job's status backward
from `'completed'`. -/
theorem accept_moves_completed_job_back :
    jobStatus dbCompleted 1 = some "completed" ∧
    (accept_application dbCompleted 1 1).1 = HttpResult.ok ∧
    jobStatus (accept_application dbCompleted 1 1).2 1 = some "in_progress" := by
  decide

/-- C1 (amended): every change of a job's status by any operation of the
program writes either `'in_progress'` (only `accept_application` does
this, and it does so unconditionally, so a `'completed'` job can move back
to `'in_progress'`) or `'completed'` (only `complete_job`); in particular
a job's status never returns to `'open'`. -/
theorem jobStatus_change_only_accept_or_complete (db : DB) (op : Op)
    (jid : Nat) (s s' : String)
    (hb : jobStatus db jid = some s)
    (ha : jobStatus (applyOp db op) jid = some s')
    (hne : s' ≠ s) :
    (s' = "in_progress" ∧ ∃ a i, op = Op.accept a i) ∨
    (s' = "completed" ∧ ∃ a j, op = Op.complete a j) := by
  obtain ⟨jb, hfind, hst⟩ := jobStatus_some db jid s hb
  rcases applyOp_jobs db op with heq | ⟨tid, hop, heq⟩ | ⟨tid, hop, heq⟩ |
    ⟨hop, nj, heq⟩
  · rw [jobStatus, findJob, heq, hfind] at ha
    simp only [Option.map_some', Option.some.injEq] at ha
    exact absurd (ha.symm.trans hst) hne
  · have hpres : ∀ x : Job,
        (decide ((if x.id = tid then { x with status := "in_progress" }
          else x).id = jid)) = decide (x.id = jid) := by
      intro x
      by_cases hx : x.id = tid <;> simp [hx]
    rw [jobStatus, findJob, heq, find?_map_pres _ _ hpres, hfind] at ha
    simp only [Option.map_some', Option.some.injEq] at ha
    by_cases hid : jb.id = tid
    · rw [if_pos hid] at ha
      exact Or.inl ⟨ha.symm, hop⟩
    · rw [if_neg hid] at ha
      exact absurd (ha.symm.trans hst) hne
  · have hpres : ∀ x : Job,
        (decide ((if x.id = tid then { x with status := "completed" }
          else x).id = jid)) = decide (x.id = jid) := by
      intro x
      by_cases hx : x.id = tid <;> simp [hx]
    rw [jobStatus, findJob, heq, find?_map_pres _ _ hpres, hfind] at ha
    simp only [Option.map_some', Option.some.injEq] at ha
    by_cases hid : jb.id = tid
    · rw [if_pos hid] at ha
      exact Or.inr ⟨ha.symm, hop⟩
    · rw [if_neg hid] at ha
      exact absurd (ha.symm.trans hst) hne
  · rw [jobStatus, findJob, heq, find?_append_left _ _ _ jb hfind] at ha
    simp only [Option.map_some', Option.some.injEq] at ha
    exact absurd (ha.symm.trans hst) hne

/-- Witness for the amended C1 theorem at a concrete store. -/
theorem jobStatus_change_only_accept_or_complete_witness :
    ("in_progress" = "in_progress" ∧ ∃ a i, Op.accept 1 1 = Op.accept a i) ∨
    ("in_progress" = "completed" ∧ ∃ a j, Op.accept 1 1 = Op.complete a j) :=
  jobStatus_change_only_accept_or_complete dbOpenPending (Op.accept 1 1) 1
    "open" "in_progress" (by decide) (by decide) (by decide)

/-- C2 counterexample: `accept_application` overwrites a `'rejected'`
application with `'accepted'` — a transition the claim rules out. -/
theorem accept_overwrites_rejected_application :
    appStatus dbCompleted 1 = some "rejected" ∧
    (accept_application dbCompleted 1 1).1 = HttpResult.ok ∧
    appStatus (accept_application dbCompleted 1 1).2 1 = some "accepted" := by
  decide

/-- C2 (amended): every change of an application's status by any operation
writes either `'accepted'` (only `accept_application`, which does so
whatever the prior status, so `'rejected'` → `'accepted'` is possible) or
`'rejected'` (only `reject_application`, which likewise overwrites
`'accepted'`, and the bulk update of `complete_job`); a status never
returns to `'pending'`. -/
theorem appStatus_change_only_accept_reject_complete (db : DB) (op : Op)
    (aid : Nat) (s s' : String)
    (hb : appStatus db aid = some s)
    (ha : appStatus (applyOp db op) aid = some s')
    (hne : s' ≠ s) :
    (s' = "accepted" ∧ ∃ a i, op = Op.accept a i) ∨
    (s' = "rejected" ∧
      ((∃ a i, op = Op.reject a i) ∨ ∃ a j, op = Op.complete a j)) := by
  obtain ⟨ab, hfind, hst⟩ := appStatus_some db aid s hb
  rcases applyOp_applications db op with heq | ⟨tid, hop, heq⟩ |
    ⟨tid, hop, heq⟩ | ⟨tid, hop, heq⟩ | ⟨tid, hop, heq⟩ | ⟨hop, na, hna, heq⟩
  · rw [appStatus, findApp, heq, hfind] at ha
    simp only [Option.map_some', Option.some.injEq] at ha
    exact absurd (ha.symm.trans hst) hne
  · have hpres : ∀ x : Application,
        (decide ((if x.id = tid then { x with status := "accepted" }
          else x).id = aid)) = decide (x.id = aid) := by
      intro x
      by_cases hx : x.id = tid <;> simp [hx]
    rw [appStatus, findApp, heq, find?_map_pres _ _ hpres, hfind] at ha
    simp only [Option.map_some', Option.some.injEq] at ha
    by_cases hid : ab.id = tid
    · rw [if_pos hid] at ha
      exact Or.inl ⟨ha.symm, hop⟩
    · rw [if_neg hid] at ha
      exact absurd (ha.symm.trans hst) hne
  · have hpres : ∀ x : Application,
        (decide ((if x.id = tid then { x with status := "rejected" }
          else x).id = aid)) = decide (x.id = aid) := by
      intro x
      by_cases hx : x.id = tid <;> simp [hx]
    rw [appStatus, findApp, heq, find?_map_pres _ _ hpres, hfind] at ha
    simp only [Option.map_some', Option.some.injEq] at ha
    by_cases hid : ab.id = tid
    · rw [if_pos hid] at ha
      exact Or.inr ⟨ha.symm, Or.inl hop⟩
    · rw [if_neg hid] at ha
      exact absurd (ha.symm.trans hst) hne
  · have hpres : ∀ x : Application,
        (decide ((if x.jobId = tid ∧ x.status ≠ "accepted"
          then { x with status := "rejected" } else x).id = aid)) =
          decide (x.id = aid) := by
      intro x
      by_cases hx : x.jobId = tid ∧ x.status ≠ "accepted" <;> simp [hx]
    rw [appStatus, findApp, heq, find?_map_pres _ _ hpres, hfind] at ha
    simp only [Option.map_some', Option.some.injEq] at ha
    by_cases hc : ab.jobId = tid ∧ ab.status ≠ "accepted"
    · rw [if_pos hc] at ha
      exact Or.inr ⟨ha.symm, Or.inr hop⟩
    · rw [if_neg hc] at ha
      exact absurd (ha.symm.trans hst) hne
  · by_cases htid : aid = tid
    · have : (db.applications.filter (fun x => x.id ≠ tid)).find?
          (fun a => a.id = aid) = none := by
        apply find?_filter_of_excl
        intro x hx
        have : x.id = aid := of_decide_eq_true hx
        simp [this, htid]
      rw [appStatus, findApp, heq, this] at ha
      exact absurd ha (by simp)
    · have : (db.applications.filter (fun x => x.id ≠ tid)).find?
          (fun a => a.id = aid) = db.applications.find? (fun a => a.id = aid) := by
        apply find?_filter_of_imp
        intro x hx
        have : x.id = aid := of_decide_eq_true hx
        simp [this, htid]
      rw [appStatus, findApp, heq, this, hfind] at ha
      simp only [Option.map_some', Option.some.injEq] at ha
      exact absurd (ha.symm.trans hst) hne
  · rw [appStatus, findApp, heq, find?_append_left _ _ _ ab hfind] at ha
    simp only [Option.map_some', Option.some.injEq] at ha
    exact absurd (ha.symm.trans hst) hne

/-- Witness for the amended C2 theorem at a concrete store. -/
theorem appStatus_change_only_accept_reject_complete_witness :
    ("accepted" = "accepted" ∧ ∃ a i, Op.accept 1 1 = Op.accept a i) ∨
    ("accepted" = "rejected" ∧
      ((∃ a i, Op.accept 1 1 = Op.reject a i) ∨
        ∃ a j, Op.accept 1 1 = Op.complete a j)) :=
  appStatus_change_only_accept_reject_complete dbOpenPending (Op.accept 1 1) 1
    "pending" "accepted" (by decide) (by decide) (by decide)

/-- C3: when the actor owns the application's job, `accept_application`
returns success, the application's status becomes `'accepted'` and the
job's status `'in_progress'`, whatever the job's prior status; any other
actor receives a forbidden response and the store is unchanged. -/
theorem accept_application_correct (db : DB) (actor appId : Nat)
    (app : Application) (job : Job)
    (happ : findApp db appId = some app)
    (hjob : findJob db app.jobId = some job) :
    (job.owner = some actor →
      (accept_application db actor appId).1 = HttpResult.ok ∧
      appStatus (accept_application db actor appId).2 appId =
        some "accepted" ∧
      jobStatus (accept_application db actor appId).2 app.jobId =
        some "in_progress") ∧
    (job.owner ≠ some actor →
      (accept_application db actor appId).1 = HttpResult.forbidden ∧
      (accept_application db actor appId).2 = db) := by
  have happ' : db.applications.find? (fun a => a.id = appId) = some app := happ
  have hjob' : db.jobs.find? (fun j => j.id = app.jobId) = some job := hjob
  have hid : app.id = appId := by simpa using List.find?_some happ'
  have hjid : job.id = app.jobId := by simpa using List.find?_some hjob'
  constructor
  · intro hown
    have hacc : accept_application db actor appId =
        (HttpResult.ok, { db with
          applications := db.applications.map (fun a =>
            if a.id = appId then { a with status := "accepted" } else a),
          jobs := db.jobs.map (fun j =>
            if j.id = job.id then { j with status := "in_progress" }
            else j) }) := by
      simp only [accept_application, happ, hjob, if_pos hown]
    refine ⟨by rw [hacc], ?_, ?_⟩
    · have hpres : ∀ x : Application,
          (decide ((if x.id = appId then { x with status := "accepted" }
            else x).id = appId)) = decide (x.id = appId) := by
        intro x
        by_cases hx : x.id = appId <;> simp [hx]
      rw [hacc, appStatus, findApp]
      rw [find?_map_pres _ _ hpres, happ']
      simp [hid]
    · have hpres : ∀ x : Job,
          (decide ((if x.id = job.id then { x with status := "in_progress" }
            else x).id = app.jobId)) = decide (x.id = app.jobId) := by
        intro x
        by_cases hx : x.id = job.id <;> simp [hx]
      rw [hacc, jobStatus, findJob]
      rw [find?_map_pres _ _ hpres, hjob']
      simp
  · intro hown
    have hacc : accept_application db actor appId = (HttpResult.forbidden, db) := by
      simp only [accept_application, happ, hjob, if_neg hown]
    rw [hacc]
    exact ⟨rfl, rfl⟩

/-- Witness for C3 at a concrete store: accepting the pending application
of an open job succeeds and performs both status writes. -/
theorem accept_application_correct_witness :
    (accept_application dbOpenPending 1 1).1 = HttpResult.ok ∧
    appStatus (accept_application dbOpenPending 1 1).2 1 = some "accepted" ∧
    jobStatus (accept_application dbOpenPending 1 1).2 1 =
      some "in_progress" :=
  (accept_application_correct dbOpenPending 1 1
    ⟨1, 1, some 2, "n", "p", "pending", 0⟩
    ⟨1, "t", "d", 100, some 1, "open", 0⟩
    (by decide) (by decide)).1 (by decide)

/-- C4: completing a job as its owner succeeds, writes `'completed'` on
the job, turns every non-`'accepted'` application of that job into
`'rejected'`, leaves `'accepted'` ones and applications of other jobs
untouched, and introduces no other row. -/
theorem complete_job_correct (db : DB) (actor jobId : Nat) (job : Job)
    (hjob : findJob db jobId = some job) (hown : job.owner = some actor) :
    (complete_job db actor jobId).1 = HttpResult.ok ∧
    jobStatus (complete_job db actor jobId).2 jobId = some "completed" ∧
    (∀ a ∈ db.applications, a.jobId = jobId → a.status ≠ "accepted" →
      { a with status := "rejected" } ∈
        (complete_job db actor jobId).2.applications) ∧
    (∀ a ∈ db.applications, a.jobId = jobId → a.status = "accepted" →
      a ∈ (complete_job db actor jobId).2.applications) ∧
    (∀ a ∈ db.applications, a.jobId ≠ jobId →
      a ∈ (complete_job db actor jobId).2.applications) ∧
    (∀ a ∈ (complete_job db actor jobId).2.applications,
      a ∈ db.applications ∨
      ∃ b ∈ db.applications, b.jobId = jobId ∧ b.status ≠ "accepted" ∧
        a = { b with status := "rejected" }) := by
  have hjob' : db.jobs.find? (fun j => j.id = jobId) = some job := hjob
  have hjid : job.id = jobId := by simpa using List.find?_some hjob'
  have hc : complete_job db actor jobId =
      (HttpResult.ok, { db with
        jobs := db.jobs.map (fun j =>
          if j.id = jobId then { j with status := "completed" } else j),
        applications := db.applications.map (fun a =>
          if a.jobId = jobId ∧ a.status ≠ "accepted"
          then { a with status := "rejected" } else a) }) := by
    simp only [complete_job, hjob, if_pos hown]
  refine ⟨by rw [hc], ?_, ?_, ?_, ?_, ?_⟩
  · have hpres : ∀ x : Job,
        (decide ((if x.id = jobId then { x with status := "completed" }
          else x).id = jobId)) = decide (x.id = jobId) := by
      intro x
      by_cases hx : x.id = jobId <;> simp [hx]
    rw [hc, jobStatus, findJob]
    rw [find?_map_pres _ _ hpres, hjob']
    simp [hjid]
  · intro a ha haj hst
    rw [hc]
    have : { a with status := "rejected" } =
        (fun a : Application =>
          if a.jobId = jobId ∧ a.status ≠ "accepted"
          then { a with status := "rejected" } else a) a := by
      simp [haj, hst]
    rw [this]
    exact List.mem_map_of_mem _ ha
  · intro a ha haj hst
    rw [hc]
    refine List.mem_map.mpr ⟨a, ha, ?_⟩
    simp [hst]
  · intro a ha haj
    rw [hc]
    refine List.mem_map.mpr ⟨a, ha, ?_⟩
    simp [haj]
  · intro a ha
    rw [hc] at ha
    obtain ⟨b, hb, hfb⟩ := List.mem_map.mp ha
    by_cases hcond : b.jobId = jobId ∧ b.status ≠ "accepted"
    · right
      refine ⟨b, hb, hcond.1, hcond.2, ?_⟩
      rw [← hfb]
      simp [hcond]
    · left
      rw [← hfb]
      simp only [if_neg hcond]
      exact hb

/-- Concrete store for the C4 witness: job 1 (`'in_progress'`, owner 1)
has an `'accepted'` application (id 1) and a `'pending'` one (id 2); job 2
has its own `'pending'` application (id 3). -/
def dbTwoJobs : DB :=
  ⟨[1, 2, 3], [⟨1, "client"⟩, ⟨2, "freelancer"⟩, ⟨3, "freelancer"⟩],
   [⟨1, "t", "d", 100, some 1, "in_progress", 0⟩,
    ⟨2, "u", "e", 50, some 1, "open", 0⟩],
   [⟨1, 1, some 3, "m", "q", "accepted", 0⟩,
    ⟨2, 1, some 2, "n", "p", "pending", 0⟩,
    ⟨3, 2, some 2, "n", "p", "pending", 0⟩], []⟩

/-- Witness for C4: completing job 1 of `dbTwoJobs` rejects its pending
application, keeps its accepted one, and keeps job 2's application. -/
theorem complete_job_correct_witness :
    (complete_job dbTwoJobs 1 1).1 = HttpResult.ok ∧
    jobStatus (complete_job dbTwoJobs 1 1).2 1 = some "completed" ∧
    (⟨2, 1, some 2, "n", "p", "rejected", 0⟩ : Application) ∈
      (complete_job dbTwoJobs 1 1).2.applications ∧
    (⟨1, 1, some 3, "m", "q", "accepted", 0⟩ : Application) ∈
      (complete_job dbTwoJobs 1 1).2.applications ∧
    (⟨3, 2, some 2, "n", "p", "pending", 0⟩ : Application) ∈
      (complete_job dbTwoJobs 1 1).2.applications := by
  have h := complete_job_correct dbTwoJobs 1 1
    ⟨1, "t", "d", 100, some 1, "in_progress", 0⟩ (by decide) (by decide)
  exact ⟨h.1, h.2.1,
    h.2.2.1 ⟨2, 1, some 2, "n", "p", "pending", 0⟩ (by decide) (by decide)
      (by decide),
    h.2.2.2.1 ⟨1, 1, some 3, "m", "q", "accepted", 0⟩ (by decide) (by decide)
      (by decide),
    h.2.2.2.2.1 ⟨3, 2, some 2, "n", "p", "pending", 0⟩ (by decide) (by decide)⟩

/-- C5: `delete_application` removes the row exactly when the requester is
the applicant and the status is `'rejected'`; otherwise it returns a
denial and changes nothing. -/
theorem delete_application_correct (db : DB) (actor appId : Nat)
    (app : Application) (happ : findApp db appId = some app) :
    (app.applicantUser = some actor ∧ app.status = "rejected" →
      (delete_application db actor appId).1 = HttpResult.ok ∧
      findApp (delete_application db actor appId).2 appId = none ∧
      (∀ b ∈ db.applications, b.id ≠ appId →
        b ∈ (delete_application db actor appId).2.applications) ∧
      (∀ b ∈ (delete_application db actor appId).2.applications,
        b ∈ db.applications)) ∧
    (¬(app.applicantUser = some actor ∧ app.status = "rejected") →
      (delete_application db actor appId).1 = HttpResult.forbidden ∧
      (delete_application db actor appId).2 = db) := by
  constructor
  · intro hok
    have hcond : ¬(app.applicantUser ≠ some actor ∨ app.status ≠ "rejected") := by
      push_neg
      exact hok
    have hdel : delete_application db actor appId =
        (HttpResult.ok, { db with
          applications := db.applications.filter (fun a => a.id ≠ appId) }) := by
      simp only [delete_application, happ, if_neg hcond]
    refine ⟨by rw [hdel], ?_, ?_, ?_⟩
    · rw [hdel, findApp]
      apply find?_filter_of_excl
      intro x hx
      have hxi : x.id = appId := of_decide_eq_true hx
      simp [hxi]
    · intro b hb hbne
      rw [hdel]
      exact List.mem_filter.mpr ⟨hb, by simp [hbne]⟩
    · intro b hb
      rw [hdel] at hb
      exact (List.mem_filter.mp hb).1
  · intro hko
    have hcond : app.applicantUser ≠ some actor ∨ app.status ≠ "rejected" := by
      by_contra hc
      push_neg at hc
      exact hko hc
    have hdel : delete_application db actor appId = (HttpResult.forbidden, db) := by
      simp only [delete_application, happ, if_pos hcond]
    rw [hdel]
    exact ⟨rfl, rfl⟩

/-- Concrete store for the C5 witness: application 1 is `'rejected'` and
owned by freelancer 2, application 2 is still `'pending'`. -/
def dbRejected : DB :=
  ⟨[1, 2], [⟨1, "client"⟩, ⟨2, "freelancer"⟩],
   [⟨1, "t", "d", 100, some 1, "open", 0⟩],
   [⟨1, 1, some 2, "n", "p", "rejected", 0⟩,
    ⟨2, 1, some 2, "n", "p", "pending", 0⟩], []⟩

/-- Witness for C5: the applicant deletes their rejected application
(row gone), and deleting the pending one is denied with no change. -/
theorem delete_application_correct_witness :
    (delete_application dbRejected 2 1).1 = HttpResult.ok ∧
    findApp (delete_application dbRejected 2 1).2 1 = none ∧
    (delete_application dbRejected 2 2).1 = HttpResult.forbidden ∧
    (delete_application dbRejected 2 2).2 = dbRejected := by
  have h1 := (delete_application_correct dbRejected 2 1
    ⟨1, 1, some 2, "n", "p", "rejected", 0⟩ (by decide)).1 (by decide)
  have h2 := (delete_application_correct dbRejected 2 2
    ⟨2, 1, some 2, "n", "p", "pending", 0⟩ (by decide)).2 (by decide)
  exact ⟨h1.1, h1.2.1, h2.1, h2.2⟩

/-- C9: `apply_job` places no precondition on the job's status — any
freelancer submitting non-empty form fields against any existing job,
including an `'in_progress'` or `'completed'` one, appends a fresh
`'pending'` application row. -/
theorem apply_job_ignores_job_status (db : DB) (actor jobId : Nat)
    (job : Job) (applicantName proposal : String) (newId now : Nat)
    (hrole : roleOf db actor = some "freelancer")
    (hjob : findJob db jobId = some job)
    (hn : applicantName ≠ "") (hp : proposal ≠ "") :
    (apply_job db actor jobId applicantName proposal newId now).1 =
      HttpResult.ok ∧
    (apply_job db actor jobId applicantName proposal newId now).2.applications
      = db.applications ++
        [⟨newId, job.id, some actor, applicantName, proposal, "pending", now⟩] := by
  have h : apply_job db actor jobId applicantName proposal newId now =
      (HttpResult.ok, { db with applications := db.applications ++
        [⟨newId, job.id, some actor, applicantName, proposal, "pending", now⟩] }) := by
    simp only [apply_job, hrole, hjob, if_pos (And.intro hn hp)]
    simp
  rw [h]
  exact ⟨rfl, rfl⟩

/-- Witness for C9: a freelancer applies to the `'completed'` job of
`dbCompleted` and the pending application is still created. -/
theorem apply_job_ignores_job_status_witness :
    (apply_job dbCompleted 2 1 "nm" "pr" 7 5).1 = HttpResult.ok ∧
    (apply_job dbCompleted 2 1 "nm" "pr" 7 5).2.applications =
      dbCompleted.applications ++ [⟨7, 1, some 2, "nm", "pr", "pending", 5⟩] :=
  apply_job_ignores_job_status dbCompleted 2 1
    ⟨1, "t", "d", 100, some 1, "completed", 0⟩ "nm" "pr" 7 5
    (by decide) (by decide) (by decide) (by decide)

/-- The Prop-level reading of `conversationAuthorized`. -/
theorem conversationAuthorized_iff (db : DB) (actor : Nat) (job : Job) :
    conversationAuthorized db actor job = true ↔
      (job.owner = some actor ∨ ∃ a ∈ db.applications,
        a.jobId = job.id ∧ a.applicantUser = some actor ∧
        a.status = "accepted") := by
  simp [conversationAuthorized, List.any_eq_true]

/-- C10: for an existing job and an existing counterpart, `conversation`
and `clear_chat` are forbidden exactly when the requester is neither the
job's owner nor an accepted applicant of the job; the counterpart's
identity never enters the check, so an authorized requester reaches the
thread of any existing user. -/
theorem conversation_auth_ignores_counterpart (db : DB) (actor jobId : Nat)
    (job : Job) (hjob : findJob db jobId = some job)
    (otherId : Nat) (hother : db.users.contains otherId = true) :
    ((conversation db actor jobId otherId).1 = HttpResult.forbidden ↔
      ¬(job.owner = some actor ∨ ∃ a ∈ db.applications,
        a.jobId = job.id ∧ a.applicantUser = some actor ∧
        a.status = "accepted")) ∧
    ((conversation db actor jobId otherId).1 ≠ HttpResult.forbidden →
      (conversation db actor jobId otherId).1 = HttpResult.rendered) ∧
    ((clear_chat db actor jobId otherId).1 = HttpResult.forbidden ↔
      ¬(job.owner = some actor ∨ ∃ a ∈ db.applications,
        a.jobId = job.id ∧ a.applicantUser = some actor ∧
        a.status = "accepted")) ∧
    ((clear_chat db actor jobId otherId).1 ≠ HttpResult.forbidden →
      (clear_chat db actor jobId otherId).1 = HttpResult.ok) := by
  have hiff := conversationAuthorized_iff db actor job
  have hmem : otherId ∈ db.users := by simpa using hother
  by_cases hauth : conversationAuthorized db actor job = true
  · have hP := hiff.mp hauth
    have hc : (conversation db actor jobId otherId).1 = HttpResult.rendered := by
      simp [conversation, hjob, hmem, hauth]
    have hcc : (clear_chat db actor jobId otherId).1 = HttpResult.ok := by
      simp [clear_chat, hjob, hmem, hauth]
    refine ⟨?_, fun _ => hc, ?_, fun _ => hcc⟩
    · rw [hc]
      exact ⟨fun h => absurd h (by decide), fun hn => absurd hP hn⟩
    · rw [hcc]
      exact ⟨fun h => absurd h (by decide), fun hn => absurd hP hn⟩
  · have hf : conversationAuthorized db actor job = false := by
      simpa using hauth
    have hnP : ¬(job.owner = some actor ∨ ∃ a ∈ db.applications,
        a.jobId = job.id ∧ a.applicantUser = some actor ∧
        a.status = "accepted") := fun hp => hauth (hiff.mpr hp)
    have hc : (conversation db actor jobId otherId).1 = HttpResult.forbidden := by
      simp [conversation, hjob, hmem, hf]
    have hcc : (clear_chat db actor jobId otherId).1 = HttpResult.forbidden := by
      simp [clear_chat, hjob, hmem, hf]
    refine ⟨?_, ?_, ?_, ?_⟩
    · rw [hc]
      exact ⟨fun _ => hnP, fun _ => rfl⟩
    · rw [hc]
      intro h
      exact absurd rfl h
    · rw [hcc]
      exact ⟨fun _ => hnP, fun _ => rfl⟩
    · rw [hcc]
      intro h
      exact absurd rfl h

/-- Witness for C10: the owner of job 1 in `dbTwoJobs` opens and clears a
thread with user 2, who is not an accepted applicant of that job. -/
theorem conversation_auth_ignores_counterpart_witness :
    (conversation dbTwoJobs 1 1 2).1 = HttpResult.rendered ∧
    (clear_chat dbTwoJobs 1 1 2).1 = HttpResult.ok := by
  have h := conversation_auth_ignores_counterpart dbTwoJobs 1 1
    ⟨1, "t", "d", 100, some 1, "in_progress", 0⟩ (by decide) 2 (by decide)
  refine ⟨h.2.1 ?_, h.2.2.2 ?_⟩
  · exact fun heq => (h.1.mp heq) (Or.inl (by decide))
  · exact fun heq => (h.2.2.1.mp heq) (Or.inl (by decide))

/-- C6: for an authorized viewer (actor) and a distinct counterpart, the
conversation view renders, returns exactly the stored messages of that job
between the two users in either direction in non-decreasing timestamp
order, and as a side effect marks every incoming message of the thread
read while never touching a message sent by the viewer (nor any message
outside the incoming half of the thread). -/
theorem conversation_thread_correct (db : DB) (actor jobId otherId : Nat)
    (job : Job) (hjob : findJob db jobId = some job)
    (hother : db.users.contains otherId = true)
    (hauth : conversationAuthorized db actor job = true)
    (hne : actor ≠ otherId) :
    (conversation db actor jobId otherId).1 = HttpResult.rendered ∧
    (∀ m, m ∈ (conversation db actor jobId otherId).2.1 ↔
      (m ∈ (conversation db actor jobId otherId).2.2.messages ∧
        m.jobId = jobId ∧
        ((m.sender = actor ∧ m.receiver = otherId) ∨
         (m.sender = otherId ∧ m.receiver = actor)))) ∧
    (conversation db actor jobId otherId).2.1.Pairwise
      (fun a b => a.timestamp ≤ b.timestamp) ∧
    (∀ m ∈ db.messages, m.jobId = jobId → m.sender = otherId →
      m.receiver = actor →
      { m with read := true } ∈
        (conversation db actor jobId otherId).2.2.messages) ∧
    (∀ m ∈ db.messages, m.sender = actor →
      m ∈ (conversation db actor jobId otherId).2.2.messages) ∧
    (∀ m ∈ db.messages,
      ¬(m.jobId = jobId ∧ m.receiver = actor ∧ m.sender = otherId) →
      m ∈ (conversation db actor jobId otherId).2.2.messages) := by
  have hmem : otherId ∈ db.users := by simpa using hother
  have hc : conversation db actor jobId otherId =
      (HttpResult.rendered,
        threadMessages (markThreadRead db.messages jobId actor otherId)
          jobId actor otherId,
        { db with
          messages := markThreadRead db.messages jobId actor otherId }) := by
    simp [conversation, hjob, hmem, hauth]
  refine ⟨by rw [hc], ?_, ?_, ?_, ?_, ?_⟩
  · intro m
    rw [hc]
    show m ∈ threadMessages _ jobId actor otherId ↔ _
    rw [threadMessages, mem_sortLe, List.mem_filter]
    simp
  · rw [hc]
    show (threadMessages _ jobId actor otherId).Pairwise _
    rw [threadMessages]
    have h := pairwise_sortLe (fun a b : Message => a.timestamp ≤ b.timestamp)
      (by intro x y hxy; simp at hxy ⊢; omega)
      (by intro x y z hxy hyz; simp at hxy hyz ⊢; omega)
      (List.filter (fun m => decide (m.jobId = jobId ∧
        ((m.sender = actor ∧ m.receiver = otherId) ∨
         (m.sender = otherId ∧ m.receiver = actor)))) (markThreadRead db.messages jobId actor otherId))
    exact h.imp (fun hab => by simpa using hab)
  · intro m hm hj hs hr
    rw [hc]
    show _ ∈ markThreadRead db.messages jobId actor otherId
    rw [markThreadRead]
    by_cases hread : m.read = false
    · refine List.mem_map.mpr ⟨m, hm, ?_⟩
      simp [hj, hs, hr, hread]
    · have hR : m.read = true := by simpa using hread
      have hmm : { m with read := true } = m := by
        cases m with
        | mk i s r j c rd t =>
          simp only at hR
          rw [hR]
      rw [hmm]
      refine List.mem_map.mpr ⟨m, hm, ?_⟩
      simp [hR]
  · intro m hm hs
    rw [hc]
    show _ ∈ markThreadRead db.messages jobId actor otherId
    rw [markThreadRead]
    refine List.mem_map.mpr ⟨m, hm, ?_⟩
    have : ¬(m.sender = otherId) := by
      rw [hs]
      exact hne
    simp [this]
  · intro m hm hcond
    rw [hc]
    show _ ∈ markThreadRead db.messages jobId actor otherId
    rw [markThreadRead]
    refine List.mem_map.mpr ⟨m, hm, ?_⟩
    rw [if_neg]
    intro hc2
    exact hcond ⟨hc2.1, hc2.2.1, hc2.2.2.1⟩

/-- Concrete store for the C6 witness: client 1 owns job 1; message 1 is
an unread note from 2 to 1, message 2 an unread note from 1 to 2. -/
def dbMsg : DB :=
  ⟨[1, 2], [⟨1, "client"⟩, ⟨2, "freelancer"⟩],
   [⟨1, "t", "d", 100, some 1, "open", 0⟩], [],
   [⟨1, 2, 1, 1, "hi", false, 5⟩, ⟨2, 1, 2, 1, "yo", false, 3⟩]⟩

/-- Witness for C6: viewing the thread marks the incoming message read and
leaves the viewer's own sent message untouched. -/
theorem conversation_thread_correct_witness :
    (conversation dbMsg 1 1 2).1 = HttpResult.rendered ∧
    (⟨1, 2, 1, 1, "hi", true, 5⟩ : Message) ∈
      (conversation dbMsg 1 1 2).2.2.messages ∧
    (⟨2, 1, 2, 1, "yo", false, 3⟩ : Message) ∈
      (conversation dbMsg 1 1 2).2.2.messages := by
  have h := conversation_thread_correct dbMsg 1 1 2
    ⟨1, "t", "d", 100, some 1, "open", 0⟩
    (by decide) (by decide) (by decide) (by decide)
  exact ⟨h.1,
    h.2.2.2.1 ⟨1, 2, 1, 1, "hi", false, 5⟩ (by decide) (by decide) (by decide)
      (by decide),
    h.2.2.2.2.1 ⟨2, 1, 2, 1, "yo", false, 3⟩ (by decide) (by decide)⟩

/-- Concrete store for C7: user 2 has a message to themself on job 1, a
message that is not in either cross direction between users 1 and 2. -/
def dbSelfMsg : DB :=
  ⟨[1, 2], [⟨1, "client"⟩, ⟨2, "freelancer"⟩],
   [⟨1, "t", "d", 100, some 1, "open", 0⟩], [],
   [⟨1, 2, 2, 1, "note", false, 0⟩]⟩

/-- C7 counterexample: clearing the chat between users 1 and 2 on job 1
also deletes user 2's message to themself, which is in neither of the two
directions the claim allows. -/
theorem clear_chat_deletes_self_message :
    (clear_chat dbSelfMsg 1 1 2).1 = HttpResult.ok ∧
    (⟨1, 2, 2, 1, "note", false, 0⟩ : Message) ∈ dbSelfMsg.messages ∧
    ¬(((⟨1, 2, 2, 1, "note", false, 0⟩ : Message).sender = 1 ∧
        (⟨1, 2, 2, 1, "note", false, 0⟩ : Message).receiver = 2) ∨
      ((⟨1, 2, 2, 1, "note", false, 0⟩ : Message).sender = 2 ∧
        (⟨1, 2, 2, 1, "note", false, 0⟩ : Message).receiver = 1)) ∧
    (⟨1, 2, 2, 1, "note", false, 0⟩ : Message) ∉
      (clear_chat dbSelfMsg 1 1 2).2.messages := by
  decide

/-- C7 (amended): `clear_chat` deletes exactly the messages of the job
whose sender and receiver both lie in {requester, counterpart} — the two
cross directions and also self-messages of either participant; every
other message survives. -/
theorem clear_chat_deletes_pair_closure (db : DB) (actor jobId otherId : Nat)
    (job : Job) (hjob : findJob db jobId = some job)
    (hother : db.users.contains otherId = true)
    (hauth : conversationAuthorized db actor job = true) :
    (clear_chat db actor jobId otherId).1 = HttpResult.ok ∧
    ∀ m, m ∈ (clear_chat db actor jobId otherId).2.messages ↔
      (m ∈ db.messages ∧
        ¬(m.jobId = jobId ∧ (m.sender = actor ∨ m.sender = otherId) ∧
          (m.receiver = actor ∨ m.receiver = otherId))) := by
  have hmem : otherId ∈ db.users := by simpa using hother
  have hc : clear_chat db actor jobId otherId =
      (HttpResult.ok, { db with messages := db.messages.filter (fun m =>
        ¬(m.jobId = jobId ∧ (m.sender = actor ∨ m.sender = otherId) ∧
          (m.receiver = actor ∨ m.receiver = otherId))) }) := by
    simp [clear_chat, hjob, hmem, hauth]
  rw [hc]
  refine ⟨rfl, ?_⟩
  intro m
  rw [List.mem_filter]
  constructor
  · rintro ⟨h1, h2⟩
    exact ⟨h1, of_decide_eq_true h2⟩
  · rintro ⟨h1, h2⟩
    exact ⟨h1, decide_eq_true h2⟩

/-- Witness for the amended C7 theorem: the self-message of `dbSelfMsg`
is indeed gone after the clear. -/
theorem clear_chat_deletes_pair_closure_witness :
    (clear_chat dbSelfMsg 1 1 2).1 = HttpResult.ok ∧
    (⟨1, 2, 2, 1, "note", false, 0⟩ : Message) ∉
      (clear_chat dbSelfMsg 1 1 2).2.messages := by
  have h := clear_chat_deletes_pair_closure dbSelfMsg 1 1 2
    ⟨1, "t", "d", 100, some 1, "open", 0⟩ (by decide) (by decide) (by decide)
  refine ⟨h.1, fun hmem => ?_⟩
  exact ((h.2 _).mp hmem).2 (by decide)

/-- The messages involving the user (views.py 436-438, before ordering). -/
def involvedMessages (db : DB) (u : Nat) : List Message :=
  db.messages.filter (fun m => m.sender = u ∨ m.receiver = u)

/-- The same messages in `-timestamp` order (views.py 438). -/
def orderedMessages (db : DB) (u : Nat) : List Message :=
  sortLe (fun a b => b.timestamp ≤ a.timestamp) (involvedMessages db u)

/-- Prop reading of `hasConvKey`. -/
theorem hasConvKey_iff (acc : List ConvEntry) (j o : Nat) :
    hasConvKey acc j o = true ↔ ∃ e ∈ acc, e.jobId = j ∧ e.otherUserId = o := by
  simp [hasConvKey, List.any_eq_true]

/-- Every entry of the summary loop's output is either carried over from
the accumulator or built from one of the scanned messages. -/
theorem buildConvs_sub (db : DB) (u : Nat) :
    ∀ (msgs : List Message) (acc : List ConvEntry),
      ∀ e ∈ buildConvs db u acc msgs,
        e ∈ acc ∨ ∃ m ∈ msgs, e = convEntryOf db u m := by
  intro msgs
  induction msgs with
  | nil =>
    intro acc e he
    exact Or.inl (by simpa [buildConvs] using he)
  | cons m rest ih =>
    intro acc e he
    simp only [buildConvs] at he
    by_cases hk : hasConvKey acc m.jobId (otherUserOf u m) = true
    · rw [if_pos hk] at he
      rcases ih acc e he with h | ⟨m', hm', he'⟩
      · exact Or.inl h
      · exact Or.inr ⟨m', List.mem_cons_of_mem _ hm', he'⟩
    · rw [if_neg hk] at he
      rcases ih _ e he with h | ⟨m', hm', he'⟩
      · rcases List.mem_append.mp h with h | h
        · exact Or.inl h
        · exact Or.inr ⟨m, List.mem_cons_self _ _, by simpa using h⟩
      · exact Or.inr ⟨m', List.mem_cons_of_mem _ hm', he'⟩

/-- The summary loop never drops an accumulator entry. -/
theorem buildConvs_mono (db : DB) (u : Nat) :
    ∀ (msgs : List Message) (acc : List ConvEntry), ∀ e ∈ acc,
      e ∈ buildConvs db u acc msgs := by
  intro msgs
  induction msgs with
  | nil =>
    intro acc e he
    simpa [buildConvs] using he
  | cons m rest ih =>
    intro acc e he
    simp only [buildConvs]
    by_cases hk : hasConvKey acc m.jobId (otherUserOf u m) = true
    · rw [if_pos hk]
      exact ih acc e he
    · rw [if_neg hk]
      exact ih _ e (List.mem_append_left _ he)

/-- The keys present after the summary loop are the accumulator's keys
plus the keys of the scanned messages. -/
theorem buildConvs_hasKey (db : DB) (u : Nat) :
    ∀ (msgs : List Message) (acc : List ConvEntry) (j o : Nat),
      (∃ e ∈ buildConvs db u acc msgs, e.jobId = j ∧ e.otherUserId = o) ↔
        ((∃ e ∈ acc, e.jobId = j ∧ e.otherUserId = o) ∨
          ∃ m ∈ msgs, m.jobId = j ∧ otherUserOf u m = o) := by
  intro msgs
  induction msgs with
  | nil =>
    intro acc j o
    simp [buildConvs]
  | cons m rest ih =>
    intro acc j o
    simp only [buildConvs]
    by_cases hk : hasConvKey acc m.jobId (otherUserOf u m) = true
    · rw [if_pos hk, ih acc j o]
      constructor
      · rintro (h | ⟨m', hm', h'⟩)
        · exact Or.inl h
        · exact Or.inr ⟨m', List.mem_cons_of_mem _ hm', h'⟩
      · rintro (h | ⟨m', hm', hj, ho⟩)
        · exact Or.inl h
        · rcases List.mem_cons.mp hm' with rfl | hm'
          · obtain ⟨e, he, h1, h2⟩ := (hasConvKey_iff _ _ _).mp hk
            exact Or.inl ⟨e, he, h1.trans hj, h2.trans ho⟩
          · exact Or.inr ⟨m', hm', hj, ho⟩
    · rw [if_neg hk, ih _ j o]
      constructor
      · rintro (⟨e, he, hj, ho⟩ | ⟨m', hm', h'⟩)
        · rcases List.mem_append.mp he with he | he
          · exact Or.inl ⟨e, he, hj, ho⟩
          · have he' : e = convEntryOf db u m := by simpa using he
            subst he'
            exact Or.inr ⟨m, List.mem_cons_self _ _, hj, ho⟩
        · exact Or.inr ⟨m', List.mem_cons_of_mem _ hm', h'⟩
      · rintro (⟨e, he, h'⟩ | ⟨m', hm', hj, ho⟩)
        · exact Or.inl ⟨e, List.mem_append_left _ he, h'⟩
        · rcases List.mem_cons.mp hm' with rfl | hm'
          · exact Or.inl ⟨convEntryOf db u m',
              List.mem_append_right _ (by simp), hj, ho⟩
          · exact Or.inr ⟨m', hm', hj, ho⟩

/-- Once a key is present in the accumulator, no further entry with that
key is ever appended by the summary loop. -/
theorem buildConvs_key_stable (db : DB) (u : Nat) :
    ∀ (msgs : List Message) (acc : List ConvEntry) (j o : Nat),
      (∃ e ∈ acc, e.jobId = j ∧ e.otherUserId = o) →
      ∀ e ∈ buildConvs db u acc msgs, e.jobId = j → e.otherUserId = o →
        e ∈ acc := by
  intro msgs
  induction msgs with
  | nil =>
    intro acc j o _ e he _ _
    simpa [buildConvs] using he
  | cons m rest ih =>
    intro acc j o hkey e he hj ho
    simp only [buildConvs] at he
    by_cases hk : hasConvKey acc m.jobId (otherUserOf u m) = true
    · rw [if_pos hk] at he
      exact ih acc j o hkey e he hj ho
    · rw [if_neg hk] at he
      obtain ⟨e0, he0, h0j, h0o⟩ := hkey
      have := ih _ j o ⟨e0, List.mem_append_left _ he0, h0j, h0o⟩ e he hj ho
      rcases List.mem_append.mp this with h | h
      · exact h
      · exfalso
        have he' : e = convEntryOf db u m := by simpa using h
        apply hk
        apply (hasConvKey_iff _ _ _).mpr
        refine ⟨e0, he0, ?_, ?_⟩
        · rw [h0j, ← hj, he']
          rfl
        · rw [h0o, ← ho, he']
          rfl

/-- Scanning in non-increasing timestamp order, each produced entry's
`lastMessageTime` dominates the timestamp of every scanned message with
its key. -/
theorem buildConvs_time_max (db : DB) (u : Nat) :
    ∀ (msgs : List Message) (acc : List ConvEntry),
      msgs.Pairwise (fun a b => b.timestamp ≤ a.timestamp) →
      (∀ e ∈ acc, ∀ m0 ∈ msgs, m0.jobId = e.jobId →
        otherUserOf u m0 = e.otherUserId → m0.timestamp ≤ e.lastMessageTime) →
      ∀ e ∈ buildConvs db u acc msgs, ∀ m0 ∈ msgs,
        m0.jobId = e.jobId → otherUserOf u m0 = e.otherUserId →
        m0.timestamp ≤ e.lastMessageTime := by
  intro msgs
  induction msgs with
  | nil =>
    intro acc _ _ e he m0 hm0
    exact absurd hm0 (List.not_mem_nil _)
  | cons m rest ih =>
    intro acc hsort hacc e he m0 hm0 hj ho
    obtain ⟨hm_le, hsort'⟩ := List.pairwise_cons.mp hsort
    simp only [buildConvs] at he
    by_cases hk : hasConvKey acc m.jobId (otherUserOf u m) = true
    · rw [if_pos hk] at he
      rcases List.mem_cons.mp hm0 with rfl | hm0
      · have hkey : ∃ e0 ∈ acc, e0.jobId = e.jobId ∧
            e0.otherUserId = e.otherUserId := by
          obtain ⟨e0, he0, h1, h2⟩ := (hasConvKey_iff _ _ _).mp hk
          exact ⟨e0, he0, h1.trans hj, h2.trans ho⟩
        have hea : e ∈ acc :=
          buildConvs_key_stable db u rest acc e.jobId e.otherUserId hkey e he
            rfl rfl
        exact hacc e hea m0 (List.mem_cons_self _ _) hj ho
      · exact ih acc hsort'
          (fun e0 he0 m1 hm1 => hacc e0 he0 m1 (List.mem_cons_of_mem _ hm1))
          e he m0 hm0 hj ho
    · rw [if_neg hk] at he
      have hacc' : ∀ e0 ∈ acc ++ [convEntryOf db u m], ∀ m1 ∈ rest,
          m1.jobId = e0.jobId → otherUserOf u m1 = e0.otherUserId →
          m1.timestamp ≤ e0.lastMessageTime := by
        intro e0 he0 m1 hm1 hj1 ho1
        rcases List.mem_append.mp he0 with he0 | he0
        · exact hacc e0 he0 m1 (List.mem_cons_of_mem _ hm1) hj1 ho1
        · have he0' : e0 = convEntryOf db u m := by simpa using he0
          subst he0'
          exact hm_le m1 hm1
      rcases List.mem_cons.mp hm0 with rfl | hm0
      · have hkey : ∃ e0 ∈ acc ++ [convEntryOf db u m0],
            e0.jobId = e.jobId ∧ e0.otherUserId = e.otherUserId :=
          ⟨convEntryOf db u m0, List.mem_append_right _ (by simp), hj, ho⟩
        have hea := buildConvs_key_stable db u rest _ e.jobId e.otherUserId
          hkey e he rfl rfl
        rcases List.mem_append.mp hea with hea | hea
        · exfalso
          apply hk
          apply (hasConvKey_iff _ _ _).mpr
          exact ⟨e, hea, hj.symm, ho.symm⟩
        · have he' : e = convEntryOf db u m0 := by simpa using hea
          subst he'
          exact le_refl _
      · exact ih _ hsort' hacc' e he m0 hm0 hj ho

/-- The summary loop yields pairwise-distinct `(job, counterpart)` keys. -/
theorem buildConvs_distinct (db : DB) (u : Nat) :
    ∀ (msgs : List Message) (acc : List ConvEntry),
      acc.Pairwise
        (fun a b => ¬(a.jobId = b.jobId ∧ a.otherUserId = b.otherUserId)) →
      (buildConvs db u acc msgs).Pairwise
        (fun a b => ¬(a.jobId = b.jobId ∧ a.otherUserId = b.otherUserId)) := by
  intro msgs
  induction msgs with
  | nil =>
    intro acc h
    simpa [buildConvs] using h
  | cons m rest ih =>
    intro acc h
    simp only [buildConvs]
    by_cases hk : hasConvKey acc m.jobId (otherUserOf u m) = true
    · rw [if_pos hk]
      exact ih acc h
    · rw [if_neg hk]
      apply ih
      rw [List.pairwise_append]
      refine ⟨h, by simp, ?_⟩
      intro a ha b hb
      have hb' : b = convEntryOf db u m := by simpa using hb
      subst hb'
      rintro ⟨h1, h2⟩
      exact hk ((hasConvKey_iff _ _ _).mpr ⟨a, ha, h1, h2⟩)

/-- The per-pair unread count computed by the view
(`sender=counterpart, receiver=user, read=False`) agrees with "messages of
the pair addressed to the user and unread". -/
theorem pairUnreadCount_eq_claim (db : DB) (u j o : Nat) :
    pairUnreadCount db u j o =
      (db.messages.filter (fun m => m.jobId = j ∧
        ((m.sender = u ∧ m.receiver = o) ∨ (m.sender = o ∧ m.receiver = u)) ∧
        m.receiver = u ∧ m.read = false)).length := by
  rw [pairUnreadCount]
  congr 1
  apply List.filter_congr
  intro x _
  apply decide_eq_decide.mpr
  constructor
  · rintro ⟨h1, h2, h3, h4⟩
    exact ⟨h1, Or.inr ⟨h3, h2⟩, h2, h4⟩
  · rintro ⟨h1, hpair, h2, h4⟩
    rcases hpair with ⟨hs, hr⟩ | ⟨hs, hr⟩
    · exact ⟨h1, h2, by omega, h4⟩
    · exact ⟨h1, h2, hs, h4⟩

/-- C8: `my_conversations` returns entries with pairwise-distinct
`(job, counterpart)` keys, whose keys are exactly those of the messages
involving the user; each entry carries the unread count of the pair's
messages addressed to the user and the timestamp of the pair's most
recent message, and the list is ordered by that timestamp, descending. -/
theorem my_conversations_correct (db : DB) (u : Nat) :
    ((my_conversations db u).Pairwise
      (fun a b => ¬(a.jobId = b.jobId ∧ a.otherUserId = b.otherUserId))) ∧
    (∀ j o, (∃ e ∈ my_conversations db u, e.jobId = j ∧ e.otherUserId = o) ↔
      ∃ m ∈ db.messages, (m.sender = u ∨ m.receiver = u) ∧
        m.jobId = j ∧ otherUserOf u m = o) ∧
    (∀ e ∈ my_conversations db u, e.unreadCount =
      (db.messages.filter (fun m => m.jobId = e.jobId ∧
        ((m.sender = u ∧ m.receiver = e.otherUserId) ∨
         (m.sender = e.otherUserId ∧ m.receiver = u)) ∧
        m.receiver = u ∧ m.read = false)).length) ∧
    (∀ e ∈ my_conversations db u,
      ∃ m ∈ db.messages, (m.sender = u ∨ m.receiver = u) ∧
        m.jobId = e.jobId ∧ otherUserOf u m = e.otherUserId ∧
        m.timestamp = e.lastMessageTime) ∧
    (∀ e ∈ my_conversations db u, ∀ m ∈ db.messages,
      (m.sender = u ∨ m.receiver = u) → m.jobId = e.jobId →
      otherUserOf u m = e.otherUserId → m.timestamp ≤ e.lastMessageTime) ∧
    ((my_conversations db u).Pairwise
      (fun a b => b.lastMessageTime ≤ a.lastMessageTime)) := by
  have hdef : my_conversations db u =
      sortLe (fun a b => b.lastMessageTime ≤ a.lastMessageTime)
        (buildConvs db u [] (orderedMessages db u)) := rfl
  have hmem : ∀ e : ConvEntry, e ∈ my_conversations db u ↔
      e ∈ buildConvs db u [] (orderedMessages db u) := by
    intro e
    rw [hdef, mem_sortLe]
  have hordmem : ∀ m : Message, m ∈ orderedMessages db u ↔
      (m ∈ db.messages ∧ (m.sender = u ∨ m.receiver = u)) := by
    intro m
    rw [orderedMessages, mem_sortLe, involvedMessages, List.mem_filter]
    simp
  have hordsort : (orderedMessages db u).Pairwise
      (fun a b => b.timestamp ≤ a.timestamp) := by
    have h := pairwise_sortLe (fun a b : Message => b.timestamp ≤ a.timestamp)
      (by intro x y hxy; simp at hxy ⊢; omega)
      (by intro x y z hxy hyz; simp at hxy hyz ⊢; omega)
      (involvedMessages db u)
    exact h.imp (fun hab => by simpa using hab)
  refine ⟨?_, ?_, ?_, ?_, ?_, ?_⟩
  · rw [hdef]
    rw [List.Perm.pairwise_iff
      (fun {x y} h => fun hc => h ⟨hc.1.symm, hc.2.symm⟩)
      (perm_sortLe (fun a b : ConvEntry => b.lastMessageTime ≤ a.lastMessageTime)
        (buildConvs db u [] (orderedMessages db u)))]
    exact buildConvs_distinct db u (orderedMessages db u) [] List.Pairwise.nil
  · intro j o
    constructor
    · rintro ⟨e, he, h'⟩
      have hkey := (buildConvs_hasKey db u (orderedMessages db u) [] j o).mp
        ⟨e, (hmem e).mp he, h'⟩
      rcases hkey with ⟨e0, he0, _⟩ | ⟨m, hm, hj, ho⟩
      · exact absurd he0 (List.not_mem_nil _)
      · obtain ⟨hmdb, hinv⟩ := (hordmem m).mp hm
        exact ⟨m, hmdb, hinv, hj, ho⟩
    · rintro ⟨m, hmdb, hinv, hj, ho⟩
      have hm : m ∈ orderedMessages db u := (hordmem m).mpr ⟨hmdb, hinv⟩
      obtain ⟨e, he, h'⟩ :=
        (buildConvs_hasKey db u (orderedMessages db u) [] j o).mpr
          (Or.inr ⟨m, hm, hj, ho⟩)
      exact ⟨e, (hmem e).mpr he, h'⟩
  · intro e he
    rcases buildConvs_sub db u (orderedMessages db u) [] e ((hmem e).mp he)
      with h | ⟨m, hm, he'⟩
    · exact absurd h (List.not_mem_nil _)
    · subst he'
      exact pairUnreadCount_eq_claim db u m.jobId (otherUserOf u m)
  · intro e he
    rcases buildConvs_sub db u (orderedMessages db u) [] e ((hmem e).mp he)
      with h | ⟨m, hm, he'⟩
    · exact absurd h (List.not_mem_nil _)
    · subst he'
      obtain ⟨hmdb, hinv⟩ := (hordmem m).mp hm
      exact ⟨m, hmdb, hinv, rfl, rfl, rfl⟩
  · intro e he m hmdb hinv hj ho
    have hm : m ∈ orderedMessages db u := (hordmem m).mpr ⟨hmdb, hinv⟩
    exact buildConvs_time_max db u (orderedMessages db u) [] hordsort
      (fun e0 he0 => absurd he0 (List.not_mem_nil _)) e ((hmem e).mp he)
      m hm hj ho
  · rw [hdef]
    have h := pairwise_sortLe
      (fun a b : ConvEntry => b.lastMessageTime ≤ a.lastMessageTime)
      (by intro x y hxy; simp at hxy ⊢; omega)
      (by intro x y z hxy hyz; simp at hxy hyz ⊢; omega)
      (buildConvs db u [] (orderedMessages db u))
    exact h.imp (fun hab => by simpa using hab)

/-- Concrete store for the C8 witness: user 1 exchanges messages with
user 2 on job 1 (latest at time 20, one unread) and receives one from
user 3 on job 2. -/
def dbConv : DB :=
  ⟨[1, 2, 3], [⟨1, "client"⟩, ⟨2, "freelancer"⟩, ⟨3, "freelancer"⟩],
   [⟨1, "t", "d", 100, some 1, "in_progress", 0⟩,
    ⟨2, "u", "e", 50, some 1, "open", 0⟩], [],
   [⟨1, 2, 1, 1, "a", false, 10⟩,
    ⟨2, 1, 2, 1, "b", true, 20⟩,
    ⟨3, 3, 1, 2, "c", false, 5⟩]⟩

/-- Witness for C8 at `dbConv`: the summary is sorted by latest message
time descending, and the entry for (job 1, user 2) dominates the
timestamp of the older message of that pair. -/
theorem my_conversations_correct_witness :
    (my_conversations dbConv 1).Pairwise
      (fun a b => b.lastMessageTime ≤ a.lastMessageTime) ∧
    (10 : Nat) ≤ (⟨1, 2, 20, 1⟩ : ConvEntry).lastMessageTime :=
  ⟨(my_conversations_correct dbConv 1).2.2.2.2.2,
   (my_conversations_correct dbConv 1).2.2.2.2.1 ⟨1, 2, 20, 1⟩ (by decide)
     ⟨1, 2, 1, 1, "a", false, 10⟩ (by decide) (Or.inr (by decide))
     (by decide) (by decide)⟩

end Salone
